import Mathlib

/-!
Verification development for the urban-context vulnerability index script
(`Indice_de_vulnerabilidad_asociado_al_contexto_urbano.py`).

The script is a single-pass pandas/geopandas pipeline.  We embed it shallowly:

* Geometries are modelled one-dimensionally as closed intervals `[lo, hi]` of
  rationals.  In one dimension the Euclidean distance between two geometries is
  exactly computable over `ℚ` (no square roots), so `shapely.distance`,
  `representative_point` and `within` all have faithful executable models.
* Machine floats become `ℚ`.  All decibel and distance values appearing in the
  script's binning formulas are exactly representable, so no rounding artefact
  of float arithmetic is lost by this choice (the `.5` rescaling ties of
  `normalizar_rango_fijo` are exact binary floats).
* A pandas `NaN` cell is `Option.none`; a raised pandas/numpy exception is
  `Except.error` with the library's message.
* `pd.qcut(dist, q=4, labels=[1,2,3,4])` is `qcut4`: empirical quantiles with
  linear interpolation at 0, 1/4, 1/2, 3/4, 1 of the sorted data, a
  `Bin edges must be unique` error when the five edges are not strictly
  increasing (pandas default `duplicates='raise'`), and right-closed bins with
  the lowest bound included otherwise.
* `pd.cut(x, bins=[0,45,55,65,100], labels=[1,2,3,4], include_lowest=True)` is
  `pdCutBins 0 45 55 65 100`: right-closed bins `[0,45], (45,55], (55,65],
  (65,100]`, `none` outside `[0, 100]`.
-/

namespace IndiceVulnerabilidad

/-- One-dimensional model of a shapely geometry: the closed interval
`[lo, hi]` on the rational line.  A point feature is a degenerate interval
`lo = hi`.  A geometry is well formed (non-empty) when `lo ≤ hi`. -/
structure Interv where
  lo : ℚ
  hi : ℚ
deriving DecidableEq, Repr

/-- `shapely` Euclidean distance between two geometries, specialised to one
dimension: `0` when the intervals overlap, the gap between them otherwise. -/
def Interv.distance (a b : Interv) : ℚ :=
  max 0 (max (a.lo - b.hi) (b.lo - a.hi))

/-- `shapely` `within` / point-in-polygon test: the point `x` is contained in
the geometry `g`.  Executable (`Bool`), as in the source's `sjoin` predicate. -/
def Interv.containsPt (g : Interv) (x : ℚ) : Bool :=
  decide (g.lo ≤ x) && decide (x ≤ g.hi)

/-- `geometry.representative_point()`: a single representative point of the
parcel.  In the one-dimensional model it is the midpoint, which lies inside
every well-formed interval (the library guarantee the source relies on). -/
def representative_point (g : Interv) : ℚ := (g.lo + g.hi) / 2

/-- Source line 49, `capa.distance(geom).min()` : the element-wise distance
series from every feature of the layer `capa` to the parcel geometry `geom`,
reduced by the pandas `min`.  The pandas `min` of an empty series is `NaN`
(it does not raise), which `List.min?` models as `none`. -/
def calcular_dist (capa : List Interv) (geom : Interv) : Option ℚ :=
  (capa.map (fun f => Interv.distance f geom)).min?

/-- numpy/pandas `round` to zero decimals: round half to even (banker's
rounding), the rounding used by `Series.round(0)` on line 81. -/
def roundHalfEven (x : ℚ) : ℤ :=
  if x - (⌊x⌋ : ℚ) < 1 / 2 then ⌊x⌋
  else if (1 : ℚ) / 2 < x - (⌊x⌋ : ℚ) then ⌊x⌋ + 1
  else if ⌊x⌋ % 2 = 0 then ⌊x⌋ else ⌊x⌋ + 1

/-- Source lines 79-82, `normalizar_rango_fijo` applied to one cell:
`1 + 3 * (score - min_ref) / (max_ref - min_ref)`, then `.clip(1, 4)`, then
`.round(0).astype(int)`. -/
def normalizar_rango_fijo (score min_ref max_ref : ℚ) : ℤ :=
  roundHalfEven (max 1 (min (1 + 3 * (score - min_ref) / (max_ref - min_ref)) 4))

/-- `pd.cut` with explicit edges `e0 < e1 < e2 < e3 < e4`, `right=True`,
`include_lowest=True`, labels `1,2,3,4`: `none` (NaN) outside `[e0, e4]`,
otherwise the right-closed bin the value falls in, the lowest bound being
included in bin 1. -/
def pdCutBins (e0 e1 e2 e3 e4 x : ℚ) : Option ℕ :=
  if x < e0 then none
  else if e4 < x then none
  else some (1 + (if e1 < x then 1 else 0) + (if e2 < x then 1 else 0)
               + (if e3 < x then 1 else 0))

/-- Source lines 102-107: the `ru_veh` noise band of one parcel, i.e.
`pd.cut(DB_VEH, bins=[0,45,55,65,100], labels=[1,2,3,4], include_lowest=True)`
applied to the (possibly absent) decibel cell; an absent decibel stays
absent (`astype('float')` keeps NaN). -/
def ru_veh_band (db : Option ℚ) : Option ℕ :=
  db.bind (pdCutBins 0 45 55 65 100)

/-- Source lines 114-119: the final composite index of one parcel, the sum of
the green-space quartile, the normalised transport score, the normalised
services score and the noise band, with `ru_veh.fillna(0)` defaulting an
absent noise band to `0`. -/
def indice_contexto_total (sum_zver sum_tran_n sum_serv_n : ℤ)
    (ru_veh : Option ℕ) : ℤ :=
  sum_zver + sum_tran_n + sum_serv_n + (Option.map (fun b : ℕ => (b : ℤ)) ru_veh).getD 0

/-- The composite index of one parcel as a function of its raw decibel cell:
lines 102-107 composed with lines 114-119. -/
def indice_with_db (sum_zver sum_tran_n sum_serv_n : ℤ) (db : Option ℚ) : ℤ :=
  indice_contexto_total sum_zver sum_tran_n sum_serv_n (ru_veh_band db)

/-- The distance series sorted ascending (the order statistics that pandas
quantile interpolation reads). -/
def sortedD (xs : List ℚ) : List ℚ :=
  xs.insertionSort (· ≤ ·)

/-- The `i`-th order statistic of `xs` (0-based), `0` out of range. -/
def nthSorted (xs : List ℚ) (i : ℕ) : ℚ :=
  (sortedD xs).getD i 0

/-- pandas `Series.quantile(q)` with the default linear interpolation:
position `h = q * (n - 1)` in the sorted data, linearly interpolated between
the two neighbouring order statistics. -/
def quantileLinear (xs : List ℚ) (q : ℚ) : ℚ :=
  let h : ℚ := q * ((xs.length : ℚ) - 1)
  let lo : ℕ := (⌊h⌋).toNat
  nthSorted xs lo + (h - (⌊h⌋ : ℚ)) * (nthSorted xs (lo + 1) - nthSorted xs lo)

/-- The bin index (label) of `x` for right-closed quartile bins with internal
edges `e1 ≤ e2 ≤ e3`:  `1 +` the number of internal edges strictly below `x`.
For `pd.qcut` data this agrees with `pdCutBins` because every data value lies
between the outer edges (its own minimum and maximum); see
`qcut4_agrees_pdCutBins`. -/
def binOf (e1 e2 e3 x : ℚ) : ℕ :=
  1 + (if e1 < x then 1 else 0) + (if e2 < x then 1 else 0)
    + (if e3 < x then 1 else 0)

/-- Source line 53, `pd.qcut(dist, q=4, labels=[1, 2, 3, 4])`: the empirical
quartile edges of the distance distribution itself, a `ValueError` when the
edges are not all distinct (`duplicates='raise'` is the pandas default), and
otherwise the per-element quartile label. -/
def qcut4 (xs : List ℚ) : Except String (List ℕ) :=
  if quantileLinear xs 0 < quantileLinear xs (1 / 4) ∧
      quantileLinear xs (1 / 4) < quantileLinear xs (1 / 2) ∧
      quantileLinear xs (1 / 2) < quantileLinear xs (3 / 4) ∧
      quantileLinear xs (3 / 4) < quantileLinear xs 1 then
    Except.ok (xs.map (binOf (quantileLinear xs (1 / 4)) (quantileLinear xs (1 / 2))
      (quantileLinear xs (3 / 4))))
  else
    Except.error "Bin edges must be unique"

/-- Source line 98, `gpd.sjoin(centroides, ruido[['geometry','DB_HI']],
how='left', predicate='within')` restricted to the `DB_HI` column: for each
representative point, one output row per noise polygon containing it (carrying
that polygon's decibel attribute), or a single row with an absent value when
no polygon contains it. -/
def sjoin_within (pts : List ℚ) (ruido : List (Interv × ℚ)) : List (Option ℚ) :=
  pts.flatMap (fun pt =>
    match ruido.filter (fun nz => nz.1.containsPt pt) with
    | [] => [none]
    | ms => ms.map (fun nz => some nz.2))

/-- Source lines 94-99: compute the representative point of every parcel, join
it against the noise layer, and assign `joined_veh['DB_HI'].values` as the
`DB_VEH` column.  The pandas column assignment raises a `ValueError` when the
join produced a different number of rows than the parcel table (which happens
as soon as one point lies within two noise polygons). -/
def assign_db_veh (parcelas : List Interv) (ruido : List (Interv × ℚ)) :
    Except String (List (Option ℚ)) :=
  let vals := sjoin_within (parcelas.map representative_point) ruido
  if vals.length = parcelas.length then Except.ok vals
  else Except.error "Length of values does not match length of index"

/-- One row of the `parcelas` GeoDataFrame: the (never rewritten) geometry
column plus the derived attribute columns in insertion order.  An attribute
cell is `none` for NaN. -/
structure Row where
  geometry : Interv
  cols : List (String × Option ℚ)
deriving DecidableEq, Repr

/-- `df[name] = vals`: append an attribute column (the source always uses a
fresh column name).  The source only assigns series of the table's own
length; `zipWith` keeps the model total. -/
def setCol (t : List Row) (name : String) (vals : List (Option ℚ)) : List Row :=
  List.zipWith (fun r v => Row.mk r.geometry (r.cols ++ [(name, v)])) t vals

/-- `df[name]`: read an attribute column (the last column of that name). -/
def getCol (t : List Row) (name : String) : List (Option ℚ) :=
  t.map (fun r => ((r.cols.reverse.find? (fun c => c.1 == name)).map Prod.snd).getD none)

/-- Re-interleave the `qcut4` labels of the non-NaN distance cells with the
NaN cells (pandas quantile binning skips NaN and labels those rows NaN). -/
def assignLabels : List (Option ℚ) → List ℕ → List (Option ℕ)
  | [], _ => []
  | none :: ds, rks => none :: assignLabels ds rks
  | some _ :: ds, [] => none :: assignLabels ds []
  | some _ :: ds, r :: rks => some r :: assignLabels ds rks

/-- Source lines 48-54, `calcular_cuartil`: the per-parcel minimum distance to
the layer, stored in `dist_col`, and its `pd.qcut` quartile label, stored in
`cuart_col`. -/
def calcular_cuartil (parcelas : List Row) (capa : List Interv)
    (dist_col cuart_col : String) : Except String (List Row) := do
  let dist : List (Option ℚ) := parcelas.map (fun r => calcular_dist capa r.geometry)
  let rks ← qcut4 dist.reduceOption
  let labels := assignLabels dist rks
  Except.ok (setCol (setCol parcelas dist_col dist) cuart_col
    (labels.map (Option.map (fun n : ℕ => (n : ℚ)))))

/-- `Series.astype(int)` on a float column: raises on NaN, otherwise the
integer value (every value the script converts is a whole number, so floor
and C truncation agree). -/
def astypeInt : List (Option ℚ) → Except String (List ℤ)
  | [] => Except.ok []
  | none :: _ => Except.error "Cannot convert non-finite values (NA or inf) to integer"
  | some q :: vs => do
      let rest ← astypeInt vs
      Except.ok (⌊q⌋ :: rest)

/-- Source lines 71-73: `sum_zver`, `sum_trans` (metro + bus) and `sum_serv`
(salud + educación + deporte), each sub-rank first converted with
`astype(int)`. -/
def suma_grupos (t : List Row) : Except String (List Row) := do
  let zver ← astypeInt (getCol t "cuart_zver")
  let metr ← astypeInt (getCol t "cuart_metr")
  let bus ← astypeInt (getCol t "cuart_bus")
  let salu ← astypeInt (getCol t "cuart_salu")
  let edu ← astypeInt (getCol t "cuart_edu")
  let depo ← astypeInt (getCol t "cuart_depo")
  let t := setCol t "sum_zver" (zver.map (fun z : ℤ => some ((z : ℚ))))
  let t := setCol t "sum_trans"
    ((List.zipWith (fun a b : ℤ => a + b) metr bus).map (fun z : ℤ => some ((z : ℚ))))
  let t := setCol t "sum_serv"
    ((List.zipWith (fun a b : ℤ => a + b) salu
      (List.zipWith (fun a b : ℤ => a + b) edu depo)).map (fun z : ℤ => some ((z : ℚ))))
  Except.ok t

/-- `normalizar_rango_fijo` applied cell-wise to a column: NaN cells survive
the arithmetic, the clip and the round, and make the final `astype(int)`
raise. -/
def normalizarCells (min_ref max_ref : ℚ) : List (Option ℚ) → Except String (List ℤ)
  | [] => Except.ok []
  | none :: _ => Except.error "Cannot convert non-finite values (NA or inf) to integer"
  | some q :: vs => do
      let rest ← normalizarCells min_ref max_ref vs
      Except.ok (normalizar_rango_fijo q min_ref max_ref :: rest)

/-- Source lines 79-82 applied to a whole column (`normalizar_rango_fijo` at
dataframe level). -/
def normalizar_rango_fijo_col (t : List Row) (columna salida : String)
    (min_ref max_ref : ℚ) : Except String (List Row) := do
  let vals ← normalizarCells min_ref max_ref (getCol t columna)
  Except.ok (setCol t salida (vals.map (fun z : ℤ => some ((z : ℚ)))))

/-- Source lines 94-107: the temporary `centroid` column, the spatial join
assigning `DB_VEH`, and the fixed-bin classification assigning `ru_veh`. -/
def variable_ruido (t : List Row) (ruido : List (Interv × ℚ)) :
    Except String (List Row) := do
  let t := setCol t "centroid" (t.map (fun r => some (representative_point r.geometry)))
  let dbv ← assign_db_veh (t.map (fun r => r.geometry)) ruido
  let t := setCol t "DB_VEH" dbv
  let t := setCol t "ru_veh"
    ((getCol t "DB_VEH").map (fun v => (ru_veh_band v).map (fun n : ℕ => (n : ℚ))))
  Except.ok t

/-- Source lines 114-119: the `indice_contexto_total` column. -/
def indice_total_col (t : List Row) : Except String (List Row) := do
  let zver ← astypeInt (getCol t "sum_zver")
  let tran ← astypeInt (getCol t "sum_tran_n")
  let serv ← astypeInt (getCol t "sum_serv_n")
  let ruv : List (Option ℕ) :=
    (getCol t "ru_veh").map (fun v => v.map (fun q => (⌊q⌋).toNat))
  let idx := List.zipWith (fun zt sr => indice_contexto_total zt.1 zt.2 sr.1 sr.2)
    (List.zip zver tran) (List.zip serv ruv)
  Except.ok (setCol t "indice_contexto_total" (idx.map (fun z : ℤ => some ((z : ℚ)))))

/-- `df.drop(columns=[name])`. -/
def dropCol (t : List Row) (name : String) : List Row :=
  t.map (fun r => Row.mk r.geometry (r.cols.filter (fun c => !(c.1 == name))))

/-- The whole script after data loading: reproject the seven reference layers
(lines 38-40; `reproj` is the `to_crs` coordinate transformation, applied to
the reference layers only, never to the parcels), then the six quartile
stages, the group sums, the two fixed-range normalisations, the noise stage,
the final index, and the `centroid` drop before export (line 126). -/
def pipeline (reproj : Interv → Interv) (parcelas0 : List Interv)
    (zonas_verde metro bus c_salud c_educacion int_deportivas : List Interv)
    (ruido_trafico : List (Interv × ℚ)) : Except String (List Row) := do
  let zonas_verde := zonas_verde.map reproj
  let metro := metro.map reproj
  let bus := bus.map reproj
  let c_salud := c_salud.map reproj
  let c_educacion := c_educacion.map reproj
  let int_deportivas := int_deportivas.map reproj
  let ruido_trafico := ruido_trafico.map (fun nz => (reproj nz.1, nz.2))
  let parcelas : List Row := parcelas0.map (fun g => Row.mk g [])
  let parcelas ← calcular_cuartil parcelas zonas_verde "dist_zver" "cuart_zver"
  let parcelas ← calcular_cuartil parcelas metro "dist_metro" "cuart_metr"
  let parcelas ← calcular_cuartil parcelas bus "dist_bus" "cuart_bus"
  let parcelas ← calcular_cuartil parcelas c_salud "dist_salud" "cuart_salu"
  let parcelas ← calcular_cuartil parcelas c_educacion "dist_edu" "cuart_edu"
  let parcelas ← calcular_cuartil parcelas int_deportivas "dist_depor" "cuart_depo"
  let parcelas ← suma_grupos parcelas
  let parcelas ← normalizar_rango_fijo_col parcelas "sum_trans" "sum_tran_n" 2 8
  let parcelas ← normalizar_rango_fijo_col parcelas "sum_serv" "sum_serv_n" 3 12
  let parcelas ← variable_ruido parcelas ruido_trafico
  let parcelas ← indice_total_col parcelas
  Except.ok (dropCol parcelas "centroid")

/-! ### Shared helper lemmas -/

theorem roundHalfEven_lower {k : ℤ} {x : ℚ} (h : (k : ℚ) ≤ x) : k ≤ roundHalfEven x := by
  have hk : k ≤ ⌊x⌋ := Int.le_floor.mpr h
  unfold roundHalfEven
  split_ifs <;> omega

theorem roundHalfEven_upper {k : ℤ} {x : ℚ} (h : x ≤ (k : ℚ)) : roundHalfEven x ≤ k := by
  have hk : ⌊x⌋ ≤ k := by
    have := Int.floor_le_floor h
    simpa [Int.floor_intCast] using this
  have hfl : (⌊x⌋ : ℚ) ≤ x := Int.floor_le x
  unfold roundHalfEven
  split_ifs with h1 h2 h3
  · exact hk
  · have hlt : (⌊x⌋ : ℚ) < (k : ℚ) := by linarith
    have : ⌊x⌋ < k := by exact_mod_cast hlt
    omega
  · exact hk
  · have heq : x - (⌊x⌋ : ℚ) = 1 / 2 := le_antisymm (not_lt.mp h2) (not_lt.mp h1)
    have hlt : (⌊x⌋ : ℚ) < (k : ℚ) := by linarith
    have : ⌊x⌋ < k := by exact_mod_cast hlt
    omega

theorem pdCutBins_in_range (e0 e1 e2 e3 e4 x : ℚ) (h0 : e0 ≤ x) (h4 : x ≤ e4) :
    ∃ b : ℕ, pdCutBins e0 e1 e2 e3 e4 x = some b ∧ 1 ≤ b ∧ b ≤ 4 := by
  unfold pdCutBins
  have hn0 : ¬ x < e0 := not_lt.mpr h0
  have hn4 : ¬ e4 < x := not_lt.mpr h4
  rw [if_neg hn0, if_neg hn4]
  refine ⟨_, rfl, ?_, ?_⟩ <;> split_ifs <;> omega

/-! ### C1: noise bins -/

/-- C1 counterexample: the claim says decibel 45.0 maps to band 2 and 65.0 to
band 4, but `pd.cut` with `right=True` (the source's default) uses
right-closed bins, so 45.0 maps to band 1 and 65.0 to band 3. -/
theorem C1_counterexample :
    ru_veh_band (some 45) = some 1 ∧ ¬ ru_veh_band (some 45) = some 2 ∧
    ru_veh_band (some 65) = some 3 ∧ ¬ ru_veh_band (some 65) = some 4 := by
  refine ⟨by decide, by decide, by decide, by decide⟩

/-- C1 (amended): the Noise Classifier maps a decibel value to a band using
fixed right-closed bins with the lowest bound included: `[0,45] → 1`,
`(45,55] → 2`, `(55,65] → 3`, `(65,100] → 4`; in particular 44.9 maps to
band 1 and 64.999 to band 3, while 45.0 maps to band 1 (not 2) and 65.0 to
band 3 (not 4). -/
theorem C1_amended_noise_bins_right_closed :
    (∀ d : ℚ, 0 ≤ d → d ≤ 45 → ru_veh_band (some d) = some 1) ∧
    (∀ d : ℚ, 45 < d → d ≤ 55 → ru_veh_band (some d) = some 2) ∧
    (∀ d : ℚ, 55 < d → d ≤ 65 → ru_veh_band (some d) = some 3) ∧
    (∀ d : ℚ, 65 < d → d ≤ 100 → ru_veh_band (some d) = some 4) ∧
    ru_veh_band (some (449 / 10)) = some 1 ∧
    ru_veh_band (some (64999 / 1000)) = some 3 := by
  refine ⟨?_, ?_, ?_, ?_, by with_unfolding_all decide, by with_unfolding_all decide⟩ <;>
    · intro d hlo hhi
      show pdCutBins 0 45 55 65 100 d = _
      unfold pdCutBins
      split_ifs <;> first
        | rfl
        | (exfalso; linarith)

/-- Witness for `C1_amended_noise_bins_right_closed` at decibel 50. -/
theorem C1_amended_witness : ru_veh_band (some 50) = some 2 :=
  C1_amended_noise_bins_right_closed.2.1 50 (by norm_num) (by norm_num)

/-! ### C4: range normalizer -/

/-- C4: for a group of cardinality `c` (theoretical minimum `c`, maximum
`4 * c`), `normalizar_rango_fijo` rescales with `1 + 3 * (s - c) / (4c - c)`,
clamps to `[1, 4]` and rounds; the result is always in `[1, 4]` (for every
input score, also outside `[c, 4c]`), the minimum score maps to 1 and the
maximum score maps to 4. -/
theorem C4_range_normalizer (c : ℚ) (hc : 0 < c) :
    (∀ s : ℚ, 1 ≤ normalizar_rango_fijo s c (4 * c) ∧
      normalizar_rango_fijo s c (4 * c) ≤ 4) ∧
    normalizar_rango_fijo c c (4 * c) = 1 ∧
    normalizar_rango_fijo (4 * c) c (4 * c) = 4 := by
  have h3c : (4 * c - c) ≠ 0 := by
    have h : (0 : ℚ) < 4 * c - c := by linarith
    exact (ne_of_gt h)
  refine ⟨fun s => ⟨?_, ?_⟩, ?_, ?_⟩
  · exact roundHalfEven_lower (by push_cast; exact le_max_left 1 _)
  · refine roundHalfEven_upper ?_
    push_cast
    exact max_le (by norm_num) (min_le_right _ 4)
  · unfold normalizar_rango_fijo
    have : 1 + 3 * (c - c) / (4 * c - c) = 1 := by
      rw [sub_self, mul_zero, zero_div, add_zero]
    rw [this]
    norm_num [roundHalfEven]
  · unfold normalizar_rango_fijo
    have : 1 + 3 * (4 * c - c) / (4 * c - c) = 4 := by
      rw [mul_div_assoc, div_self h3c, mul_one]
      norm_num
    rw [this]
    norm_num [roundHalfEven]

/-- Witness for `C4_range_normalizer` with cardinality 2 (the transport
group) and the out-of-range score 100. -/
theorem C4_witness :
    (1 ≤ normalizar_rango_fijo 100 2 (4 * 2) ∧
      normalizar_rango_fijo 100 2 (4 * 2) ≤ 4) ∧
    normalizar_rango_fijo 2 2 (4 * 2) = 1 ∧
    normalizar_rango_fijo (4 * 2) 2 (4 * 2) = 4 :=
  ⟨(C4_range_normalizer 2 (by norm_num)).1 100,
   (C4_range_normalizer 2 (by norm_num)).2.1,
   (C4_range_normalizer 2 (by norm_num)).2.2⟩

/-! ### C9: rounding tie-break -/

/-- C9: the rounding of the Range Normalizer is round-half-to-even: at every
`.5` tie the result is one of the two neighbouring integers and is even; the
transport sums 3, 5 and 7 (rescaled 1.5, 2.5 and 3.5) normalise to 2, 2 and
4 respectively. -/
theorem C9_round_half_to_even :
    (∀ k : ℤ, 2 ∣ roundHalfEven ((k : ℚ) + 1 / 2) ∧
      (roundHalfEven ((k : ℚ) + 1 / 2) = k ∨ roundHalfEven ((k : ℚ) + 1 / 2) = k + 1)) ∧
    normalizar_rango_fijo 3 2 8 = 2 ∧
    normalizar_rango_fijo 5 2 8 = 2 ∧
    normalizar_rango_fijo 7 2 8 = 4 := by
  refine ⟨?_, by with_unfolding_all decide, by with_unfolding_all decide,
    by with_unfolding_all decide⟩
  intro k
  have hfl : ⌊(k : ℚ) + 1 / 2⌋ = k := by
    rw [add_comm, Int.floor_add_int]
    norm_num
  have hfr : (k : ℚ) + 1 / 2 - (⌊(k : ℚ) + 1 / 2⌋ : ℚ) = 1 / 2 := by
    rw [hfl]; ring
  unfold roundHalfEven
  rw [hfr, hfl]
  simp only [lt_irrefl, if_false]
  split_ifs with hpar
  · exact ⟨by omega, Or.inl rfl⟩
  · exact ⟨by omega, Or.inr rfl⟩

/-! ### C5: index composer -/

/-- C5: the Index Composer returns the integer sum of the four scores (green
quartile, normalised transport, normalised services, noise band with absent
noise defaulting to 0); when every score is in `[1,4]` and noise is present
the sum lies in `[4,16]`, and with absent noise the sum is the three-term
sum, strictly lower than with any present noise band. -/
theorem C5_index_composer (z t s : ℤ)
    (hz1 : 1 ≤ z) (hz4 : z ≤ 4) (ht1 : 1 ≤ t) (ht4 : t ≤ 4)
    (hs1 : 1 ≤ s) (hs4 : s ≤ 4) :
    (∀ b : ℕ, 1 ≤ b → b ≤ 4 →
      indice_contexto_total z t s (some b) = z + t + s + b ∧
      4 ≤ indice_contexto_total z t s (some b) ∧
      indice_contexto_total z t s (some b) ≤ 16) ∧
    indice_contexto_total z t s none = z + t + s ∧
    (∀ b : ℕ, 1 ≤ b →
      indice_contexto_total z t s none < indice_contexto_total z t s (some b)) := by
  unfold indice_contexto_total
  simp only [Option.map_some', Option.map_none', Option.getD_some, Option.getD_none]
  refine ⟨fun b hb1 hb4 => ⟨by trivial, by omega, by omega⟩, by omega, fun b hb1 => by omega⟩

/-- Witness for `C5_index_composer` at the all-minimum parcel with noise
band 1. -/
theorem C5_witness :
    4 ≤ indice_contexto_total 1 1 1 (some 1) ∧
    indice_contexto_total 1 1 1 (some 1) ≤ 16 :=
  ⟨((C5_index_composer 1 1 1 (by decide) (by decide) (by decide) (by decide)
      (by decide) (by decide)).1 1 (by decide) (by decide)).2.1,
   ((C5_index_composer 1 1 1 (by decide) (by decide) (by decide) (by decide)
      (by decide) (by decide)).1 1 (by decide) (by decide)).2.2⟩

/-! ### C10: out-of-range decibel values -/

/-- C10 counterexample: a parcel with decibel 150 (outside the bins) does not
necessarily receive a lower composite index than a parcel whose decibel falls
inside the bins: with partial scores 4,4,4 and decibel 150 the index is 12,
while partial scores 1,1,1 with in-bin decibel 50 give 5. -/
theorem C10_counterexample :
    ru_veh_band (some 150) = none ∧ ru_veh_band (some 50) = some 2 ∧
    ¬ indice_with_db 4 4 4 (some 150) < indice_with_db 1 1 1 (some 50) := by
  refine ⟨by decide, by decide, by decide⟩

/-- C10 (amended): a decibel value above 100 or below 0 gets an absent noise
band (not clamped to band 4, not rejected), the composer counts its noise
contribution as 0, and the parcel's composite index is strictly lower than
the same parcel (same other scores) would get with any in-bin decibel
value. -/
theorem C10_amended_out_of_range_noise (z t s : ℤ) (d : ℚ)
    (hd : 100 < d ∨ d < 0) :
    ru_veh_band (some d) = none ∧
    indice_with_db z t s (some d) = z + t + s ∧
    (∀ d2 : ℚ, 0 ≤ d2 → d2 ≤ 100 →
      indice_with_db z t s (some d) < indice_with_db z t s (some d2)) := by
  have hnone : ru_veh_band (some d) = none := by
    show pdCutBins 0 45 55 65 100 d = none
    unfold pdCutBins
    rcases hd with hd | hd
    · rw [if_neg (by linarith), if_pos hd]
    · rw [if_pos hd]
  refine ⟨hnone, ?_, ?_⟩
  · unfold indice_with_db
    rw [hnone]
    unfold indice_contexto_total
    simp
  · intro d2 h0 h100
    obtain ⟨b, hb, hb1, _⟩ := pdCutBins_in_range 0 45 55 65 100 d2 h0 h100
    unfold indice_with_db
    rw [hnone]
    show _ < indice_contexto_total z t s (ru_veh_band (some d2))
    rw [show ru_veh_band (some d2) = some b from hb]
    unfold indice_contexto_total
    simp only [Option.map_some', Option.map_none', Option.getD_some, Option.getD_none]
    omega

/-- Witness for `C10_amended_out_of_range_noise` at decibel 150 against the
in-bin decibel 50. -/
theorem C10_amended_witness :
    indice_with_db 1 1 1 (some 150) < indice_with_db 1 1 1 (some 50) :=
  (C10_amended_out_of_range_noise 1 1 1 150 (Or.inl (by norm_num))).2.2 50
    (by norm_num) (by norm_num)

/-! ### C3: distance evaluator on an empty layer -/

/-- C3 counterexample: with an empty reference collection the Distance
Evaluator does not raise; `capa.distance(geom).min()` is the pandas `min` of
an empty series, which is silently `NaN` (modelled as `none`) — the sentinel
the claim says is never returned. -/
theorem C3_counterexample : calcular_dist [] (Interv.mk 0 0) = none := rfl

/-- C3 (amended): on an empty reference collection the Distance Evaluator
silently yields an absent (`NaN`) value instead of raising; on a non-empty
collection it yields a defined, non-negative minimum distance. -/
theorem C3_amended_distance_empty_layer (capa : List Interv) (geom : Interv) :
    (capa = [] → calcular_dist capa geom = none) ∧
    (∀ d : ℚ, calcular_dist capa geom = some d → 0 ≤ d) ∧
    (capa ≠ [] → (calcular_dist capa geom).isSome = true) := by
  refine ⟨fun h => by rw [h]; rfl, fun d hd => ?_, fun hne => ?_⟩
  · have hmem : d ∈ capa.map (fun f => Interv.distance f geom) :=
      List.min?_mem (fun a b => min_choice a b) hd
    obtain ⟨f, _, hf⟩ := List.mem_map.mp hmem
    rw [← hf]
    exact le_max_left 0 _
  · cases capa with
    | nil => exact absurd rfl hne
    | cons f fs =>
      unfold calcular_dist
      rw [List.map_cons, List.min?_cons]
      rfl

/-- Witness for `C3_amended_distance_empty_layer`: a singleton layer yields a
defined distance. -/
theorem C3_amended_witness :
    (calcular_dist [Interv.mk 5 6] (Interv.mk 0 1)).isSome = true :=
  (C3_amended_distance_empty_layer [Interv.mk 5 6] (Interv.mk 0 1)).2.2 (by decide)

/-! ### C2: degenerate distance distributions -/

/-- C2 counterexample: on the constant distance vector `[1,1,1,1]` (a single
distinct value, hence fewer than 4) the Quartile Classifier does not proceed
with a degenerate assignment: `pd.qcut` raises `ValueError: Bin edges must be
unique` (its default `duplicates='raise'`), a fatal error, and no warning
mechanism exists in the code. -/
theorem C2_counterexample :
    ([1, 1, 1, 1] : List ℚ).toFinset.card < 4 ∧
    qcut4 [1, 1, 1, 1] = Except.error "Bin edges must be unique" := by
  refine ⟨by with_unfolding_all decide, by with_unfolding_all rfl⟩

/-- C2 (amended): on a distance vector with fewer than 4 distinct values the
Quartile Classifier either fails outright (a `ValueError` when the
interpolated quartile edges collide, e.g. on a constant vector) or proceeds
silently — with no warning — with a degenerate assignment in which at least
one of the ranks 1–4 is unreachable. -/
theorem C2_amended_degenerate_distribution (xs : List ℚ)
    (hcard : xs.toFinset.card < 4) :
    (∃ e, qcut4 xs = Except.error e) ∨
    (∃ rs, qcut4 xs = Except.ok rs ∧ ∃ r, 1 ≤ r ∧ r ≤ 4 ∧ r ∉ rs) := by
  cases hq : qcut4 xs with
  | error e => exact Or.inl ⟨e, rfl⟩
  | ok rs =>
    refine Or.inr ⟨rs, rfl, ?_⟩
    have hrs : rs = xs.map (binOf (quantileLinear xs (1 / 4)) (quantileLinear xs (1 / 2))
        (quantileLinear xs (3 / 4))) := by
      unfold qcut4 at hq
      split_ifs at hq
      exact (Except.ok.inj hq).symm
    set f := binOf (quantileLinear xs (1 / 4)) (quantileLinear xs (1 / 2))
        (quantileLinear xs (3 / 4)) with hf
    have hsub : ¬ ({1, 2, 3, 4} : Finset ℕ) ⊆ (xs.map f).toFinset := by
      intro hsubset
      have h4 : ({1, 2, 3, 4} : Finset ℕ).card = 4 := by decide
      have hle : ({1, 2, 3, 4} : Finset ℕ).card ≤ (xs.map f).toFinset.card :=
        Finset.card_le_card hsubset
      have himg : (xs.map f).toFinset = xs.toFinset.image f := by
        simpa using Multiset.toFinset_map f (xs : Multiset ℚ)
      rw [himg] at hle
      have hcle : (xs.toFinset.image f).card ≤ xs.toFinset.card :=
        Finset.card_image_le
      omega
    obtain ⟨r, hrmem, hrnot⟩ := Finset.not_subset.mp hsub
    have hr14 : 1 ≤ r ∧ r ≤ 4 := by
      have : r = 1 ∨ r = 2 ∨ r = 3 ∨ r = 4 := by
        simpa [Finset.mem_insert, Finset.mem_singleton] using hrmem
      omega
    rw [hrs]
    exact ⟨r, hr14.1, hr14.2, fun hmem => hrnot (List.mem_toFinset.mpr hmem)⟩

/-- Witness for `C2_amended_degenerate_distribution` on the three-value
vector `[0, 1, 2]` (qcut succeeds there and rank 3 is unreachable). -/
theorem C2_amended_witness :
    (∃ e, qcut4 [(0 : ℚ), 1, 2] = Except.error e) ∨
    (∃ rs, qcut4 [(0 : ℚ), 1, 2] = Except.ok rs ∧ ∃ r, 1 ≤ r ∧ r ≤ 4 ∧ r ∉ rs) :=
  C2_amended_degenerate_distribution [0, 1, 2] (by with_unfolding_all decide)

/-! ### Order-statistic and quantile lemmas for the quartile classifier -/

theorem sortedD_perm (xs : List ℚ) : (sortedD xs).Perm xs :=
  List.perm_insertionSort _ xs

theorem sortedD_length (xs : List ℚ) : (sortedD xs).length = xs.length :=
  (sortedD_perm xs).length_eq

theorem sortedD_sorted (xs : List ℚ) : (sortedD xs).Sorted (· ≤ ·) :=
  List.sorted_insertionSort _ xs

theorem sortedD_strict {xs : List ℚ} (h : xs.Nodup) : (sortedD xs).Sorted (· < ·) :=
  (sortedD_sorted xs).lt_of_le ((sortedD_perm xs).nodup_iff.mpr h)

theorem nthSorted_eq_getElem {xs : List ℚ} {i : ℕ} (h : i < (sortedD xs).length) :
    nthSorted xs i = (sortedD xs)[i] :=
  List.getD_eq_getElem _ _ h

theorem nthSorted_le {xs : List ℚ} {i j : ℕ} (hij : i ≤ j) (hj : j < xs.length) :
    nthSorted xs i ≤ nthSorted xs j := by
  have hj2 : j < (sortedD xs).length := by rw [sortedD_length]; exact hj
  have hi2 : i < (sortedD xs).length := lt_of_le_of_lt hij hj2
  rcases eq_or_lt_of_le hij with rfl | hlt
  · exact le_refl _
  · rw [nthSorted_eq_getElem hi2, nthSorted_eq_getElem hj2]
    exact List.pairwise_iff_getElem.mp (sortedD_sorted xs) i j hi2 hj2 hlt

theorem nthSorted_lt {xs : List ℚ} (hnd : xs.Nodup) {i j : ℕ}
    (hij : i < j) (hj : j < xs.length) : nthSorted xs i < nthSorted xs j := by
  have hj2 : j < (sortedD xs).length := by rw [sortedD_length]; exact hj
  have hi2 : i < (sortedD xs).length := lt_trans hij hj2
  rw [nthSorted_eq_getElem hi2, nthSorted_eq_getElem hj2]
  exact List.pairwise_iff_getElem.mp (sortedD_strict hnd) i j hi2 hj2 hij

/-- Evaluate `quantileLinear` once the interpolation position `q * (n - 1)`
is split into integer part `k` and fractional part `fr`. -/
theorem quantileLinear_eval {xs : List ℚ} {q : ℚ} {k : ℕ} {fr : ℚ}
    (hk : q * ((xs.length : ℚ) - 1) = (k : ℚ) + fr) (h0 : 0 ≤ fr) (h1 : fr < 1) :
    quantileLinear xs q =
      nthSorted xs k + fr * (nthSorted xs (k + 1) - nthSorted xs k) := by
  have hfl : ⌊q * ((xs.length : ℚ) - 1)⌋ = (k : ℤ) := by
    rw [hk, Int.floor_eq_iff]
    constructor
    · push_cast; linarith
    · push_cast; linarith
  simp only [quantileLinear]
  rw [hfl, hk, Int.toNat_natCast]
  have hsub : (k : ℚ) + fr - ((k : ℤ) : ℚ) = fr := by push_cast; ring
  rw [hsub]

/-- The count of `r` in a list all of whose elements equal `c`. -/
theorem count_eq_of_forall_eq {l : List ℕ} {c : ℕ} (h : ∀ x ∈ l, x = c) (r : ℕ) :
    l.count r = if r = c then l.length else 0 := by
  split_ifs with hrc
  · subst hrc
    exact List.count_eq_length.mpr (fun b hb => (h b hb).symm)
  · exact List.count_eq_zero.mpr (fun hmem => hrc (h r hmem))

/-- Inversion of a successful `qcut4`: the labels are `binOf` at the three
interior quartile edges. -/
theorem qcut4_ok_inv {xs : List ℚ} {rs : List ℕ} (h : qcut4 xs = Except.ok rs) :
    rs = xs.map (binOf (quantileLinear xs (1 / 4)) (quantileLinear xs (1 / 2))
      (quantileLinear xs (3 / 4))) := by
  unfold qcut4 at h
  split_ifs at h
  exact (Except.ok.inj h).symm

theorem binOf_le_four (e1 e2 e3 x : ℚ) : 1 ≤ binOf e1 e2 e3 x ∧ binOf e1 e2 e3 x ≤ 4 := by
  unfold binOf
  split_ifs <;> omega

theorem binOf_mono (e1 e2 e3 : ℚ) {x y : ℚ} (hxy : x ≤ y) :
    binOf e1 e2 e3 x ≤ binOf e1 e2 e3 y := by
  have ind : ∀ e : ℚ, (if e < x then (1 : ℕ) else 0) ≤ (if e < y then 1 else 0) := by
    intro e
    split_ifs with h1 h2
    · exact le_refl _
    · exact absurd (lt_of_lt_of_le h1 hxy) h2
    · omega
    · omega
  unfold binOf
  have := ind e1
  have := ind e2
  have := ind e3
  omega

/-- On a duplicate-free distance vector of length `4 * m` the three interior
quartile edges fall strictly between consecutive order statistics
(`y (m-1) < e1 < y m`, `y (2m-1) < e2 < y (2m)`, `y (3m-1) < e3 < y (3m)`),
so the bin label of the `j`-th order statistic is `1` plus the number of
multiples of `m` at or below `j`. -/
theorem binOf_nthSorted {xs : List ℚ} {m : ℕ} (hm : 0 < m)
    (hn : xs.length = 4 * m) (hnd : xs.Nodup) {j : ℕ} (hj : j < xs.length) :
    binOf (quantileLinear xs (1 / 4)) (quantileLinear xs (1 / 2))
      (quantileLinear xs (3 / 4)) (nthSorted xs j) =
    1 + (if m ≤ j then 1 else 0) + (if 2 * m ≤ j then 1 else 0)
      + (if 3 * m ≤ j then 1 else 0) := by
  have hm1 : m - 1 + 1 = m := by omega
  have hm2 : 2 * m - 1 + 1 = 2 * m := by omega
  have hm3 : 3 * m - 1 + 1 = 3 * m := by omega
  have he1 := @quantileLinear_eval xs (1 / 4) (m - 1) (3 / 4)
    (by rw [hn, Nat.cast_sub (by omega : 1 ≤ m)]; push_cast; ring)
    (by norm_num) (by norm_num)
  have he2 := @quantileLinear_eval xs (1 / 2) (2 * m - 1) (1 / 2)
    (by rw [hn, Nat.cast_sub (by omega : 1 ≤ 2 * m)]; push_cast; ring)
    (by norm_num) (by norm_num)
  have he3 := @quantileLinear_eval xs (3 / 4) (3 * m - 1) (1 / 4)
    (by rw [hn, Nat.cast_sub (by omega : 1 ≤ 3 * m)]; push_cast; ring)
    (by norm_num) (by norm_num)
  rw [hm1] at he1
  rw [hm2] at he2
  rw [hm3] at he3
  have hlt1 : nthSorted xs (m - 1) < nthSorted xs m :=
    nthSorted_lt hnd (by omega) (by omega)
  have hlt2 : nthSorted xs (2 * m - 1) < nthSorted xs (2 * m) :=
    nthSorted_lt hnd (by omega) (by omega)
  have hlt3 : nthSorted xs (3 * m - 1) < nthSorted xs (3 * m) :=
    nthSorted_lt hnd (by omega) (by omega)
  have hb1 : (quantileLinear xs (1 / 4) < nthSorted xs j) ↔ (m ≤ j) := by
    constructor
    · intro h
      by_contra hc
      push_neg at hc
      have hub : nthSorted xs j ≤ nthSorted xs (m - 1) :=
        nthSorted_le (by omega) (by omega)
      rw [he1] at h
      linarith
    · intro h
      have hlb : nthSorted xs m ≤ nthSorted xs j := nthSorted_le h hj
      rw [he1]
      linarith
  have hb2 : (quantileLinear xs (1 / 2) < nthSorted xs j) ↔ (2 * m ≤ j) := by
    constructor
    · intro h
      by_contra hc
      push_neg at hc
      have hub : nthSorted xs j ≤ nthSorted xs (2 * m - 1) :=
        nthSorted_le (by omega) (by omega)
      rw [he2] at h
      linarith
    · intro h
      have hlb : nthSorted xs (2 * m) ≤ nthSorted xs j := nthSorted_le h hj
      rw [he2]
      linarith
  have hb3 : (quantileLinear xs (3 / 4) < nthSorted xs j) ↔ (3 * m ≤ j) := by
    constructor
    · intro h
      by_contra hc
      push_neg at hc
      have hub : nthSorted xs j ≤ nthSorted xs (3 * m - 1) :=
        nthSorted_le (by omega) (by omega)
      rw [he3] at h
      linarith
    · intro h
      have hlb : nthSorted xs (3 * m) ≤ nthSorted xs j := nthSorted_le h hj
      rw [he3]
      linarith
  unfold binOf
  simp only [hb1, hb2, hb3]

/-- On a duplicate-free distance vector of length `4 * m`, a successful
`pd.qcut` puts exactly `m` parcels in each of the four quartile bins. -/
theorem qcut4_count_eq {xs : List ℚ} {m : ℕ} (hm : 0 < m)
    (hn : xs.length = 4 * m) (hnd : xs.Nodup) {r : ℕ} (hr1 : 1 ≤ r) (hr4 : r ≤ 4) :
    (xs.map (binOf (quantileLinear xs (1 / 4)) (quantileLinear xs (1 / 2))
      (quantileLinear xs (3 / 4)))).count r = m := by
  set f := binOf (quantileLinear xs (1 / 4)) (quantileLinear xs (1 / 2))
      (quantileLinear xs (3 / 4)) with hf
  set ys := sortedD xs with hys
  have hlen : ys.length = 4 * m := by rw [hys, sortedD_length, hn]
  have hperm : (ys.map f).Perm (xs.map f) := (sortedD_perm xs).map f
  rw [← hperm.count_eq r]
  have hval : ∀ (j : ℕ) (hjy : j < ys.length), f (ys[j]) =
      1 + (if m ≤ j then 1 else 0) + (if 2 * m ≤ j then 1 else 0)
        + (if 3 * m ≤ j then 1 else 0) := by
    intro j hjy
    have hj2 : j < xs.length := by omega
    have hgd : ys[j] = nthSorted xs j := (nthSorted_eq_getElem hjy).symm
    rw [hgd, hf]
    exact binOf_nthSorted hm hn hnd hj2
  have hmem1 : ∀ x ∈ ys.take m, f x = 1 := by
    intro x hx
    obtain ⟨k, hk, hxk⟩ := List.getElem_of_mem hx
    have hkm : k < m := by
      rw [List.length_take] at hk
      omega
    have hky : k < ys.length := by omega
    rw [List.getElem_take] at hxk
    rw [← hxk, hval k hky, if_neg (by omega), if_neg (by omega), if_neg (by omega)]
  have hmem2 : ∀ x ∈ (ys.drop m).take m, f x = 2 := by
    intro x hx
    obtain ⟨k, hk, hxk⟩ := List.getElem_of_mem hx
    have hkm : k < m := by
      rw [List.length_take] at hk
      omega
    have hkd : k < (ys.drop m).length := by
      rw [List.length_drop]
      omega
    rw [List.getElem_take] at hxk
    rw [List.getElem_drop] at hxk
    have hky : m + k < ys.length := by omega
    rw [← hxk, hval (m + k) hky, if_pos (by omega), if_neg (by omega),
      if_neg (by omega)]
  have hmem3 : ∀ x ∈ ((ys.drop m).drop m).take m, f x = 3 := by
    intro x hx
    obtain ⟨k, hk, hxk⟩ := List.getElem_of_mem hx
    have hkm : k < m := by
      rw [List.length_take] at hk
      rw [List.length_drop, List.length_drop] at hk
      omega
    rw [List.getElem_take] at hxk
    rw [List.getElem_drop] at hxk
    rw [List.getElem_drop] at hxk
    have hky : m + (m + k) < ys.length := by omega
    rw [← hxk, hval (m + (m + k)) hky, if_pos (by omega), if_pos (by omega),
      if_neg (by omega)]
  have hmem4 : ∀ x ∈ ((ys.drop m).drop m).drop m, f x = 4 := by
    intro x hx
    obtain ⟨k, hk, hxk⟩ := List.getElem_of_mem hx
    have hkm : k < m := by
      rw [List.length_drop, List.length_drop, List.length_drop] at hk
      omega
    rw [List.getElem_drop] at hxk
    rw [List.getElem_drop] at hxk
    rw [List.getElem_drop] at hxk
    have hky : m + (m + (m + k)) < ys.length := by omega
    rw [← hxk, hval (m + (m + (m + k))) hky, if_pos (by omega), if_pos (by omega),
      if_pos (by omega)]
  have hys_split : ys = ys.take m ++ ((ys.drop m).take m
      ++ (((ys.drop m).drop m).take m ++ ((ys.drop m).drop m).drop m)) := by
    rw [List.take_append_drop, List.take_append_drop, List.take_append_drop]
  have hcount : (ys.map f).count r = ((ys.take m).map f).count r
      + ((((ys.drop m).take m)).map f).count r
      + ((((ys.drop m).drop m).take m).map f).count r
      + ((((ys.drop m).drop m).drop m).map f).count r := by
    conv_lhs => rw [hys_split]
    rw [List.map_append, List.map_append, List.map_append,
      List.count_append, List.count_append, List.count_append]
    omega
  have happ : ∀ (l : List ℚ) (c : ℕ), (∀ x ∈ l, f x = c) →
      ((l.map f).count r = if r = c then l.length else 0) := by
    intro l c hall
    rw [count_eq_of_forall_eq ?_ r, List.length_map]
    intro x hx
    obtain ⟨y, hy, hxy⟩ := List.mem_map.mp hx
    rw [← hxy]
    exact hall y hy
  rw [hcount, happ _ 1 hmem1, happ _ 2 hmem2, happ _ 3 hmem3, happ _ 4 hmem4]
  have hl1 : (ys.take m).length = m := by rw [List.length_take]; omega
  have hl2 : ((ys.drop m).take m).length = m := by
    rw [List.length_take, List.length_drop]; omega
  have hl3 : (((ys.drop m).drop m).take m).length = m := by
    rw [List.length_take, List.length_drop, List.length_drop]; omega
  have hl4 : (((ys.drop m).drop m).drop m).length = m := by
    rw [List.length_drop, List.length_drop, List.length_drop]; omega
  rw [hl1, hl2, hl3, hl4]
  interval_cases r <;> simp

theorem quantileLinear_zero (xs : List ℚ) : quantileLinear xs 0 = nthSorted xs 0 := by
  have h := @quantileLinear_eval xs 0 0 0 (by push_cast; ring) (le_refl 0) (by norm_num)
  rw [h]
  ring

theorem quantileLinear_one {xs : List ℚ} (hne : xs.length ≠ 0) :
    quantileLinear xs 1 = nthSorted xs (xs.length - 1) := by
  have h := @quantileLinear_eval xs 1 (xs.length - 1) 0
    (by rw [Nat.cast_sub (by omega : 1 ≤ xs.length)]; push_cast; ring)
    (le_refl 0) (by norm_num)
  rw [h]
  ring

/-- Every data value lies between its own empirical minimum and maximum. -/
theorem mem_nthSorted_bounds {xs : List ℚ} {x : ℚ} (hx : x ∈ xs) :
    nthSorted xs 0 ≤ x ∧ x ≤ nthSorted xs (xs.length - 1) := by
  have hxy : x ∈ sortedD xs := ((sortedD_perm xs).mem_iff).mpr hx
  obtain ⟨j, hj, hxj⟩ := List.getElem_of_mem hxy
  have hj2 : j < xs.length := by
    rw [← sortedD_length]
    exact hj
  constructor
  · rw [← hxj, ← nthSorted_eq_getElem hj]
    exact nthSorted_le (by omega) hj2
  · rw [← hxj, ← nthSorted_eq_getElem hj]
    exact nthSorted_le (by omega) (by omega)

/-- Faithfulness of the unchecked `binOf` inside `qcut4`: on the data itself,
the right-closed classification with the outer edges checked (`pdCutBins`,
i.e. the real `pd.cut` with NaN outside the outer edges) never produces NaN
and agrees with `binOf`, because every value lies between the 0- and
1-quantile of its own distribution. -/
theorem qcut4_agrees_pdCutBins {xs : List ℚ} {rs : List ℕ}
    (h : qcut4 xs = Except.ok rs) :
    xs.map (pdCutBins (quantileLinear xs 0) (quantileLinear xs (1 / 4))
      (quantileLinear xs (1 / 2)) (quantileLinear xs (3 / 4)) (quantileLinear xs 1))
      = rs.map some := by
  rw [qcut4_ok_inv h, List.map_map]
  apply List.map_congr_left
  intro x hx
  have hb := mem_nthSorted_bounds hx
  have hne : xs.length ≠ 0 := by
    have := List.length_pos.mpr (List.ne_nil_of_mem hx)
    omega
  have hlo : quantileLinear xs 0 ≤ x := by
    rw [quantileLinear_zero]
    exact hb.1
  have hhi : x ≤ quantileLinear xs 1 := by
    rw [quantileLinear_one hne]
    exact hb.2
  simp only [Function.comp]
  unfold pdCutBins binOf
  rw [if_neg (not_lt.mpr hlo), if_neg (not_lt.mpr hhi)]

/-! ### C6: quartile rank invariants -/

/-- C6: whenever the Quartile Classifier succeeds on a criterion's distance
vector, (i) every assigned rank is in `{1,2,3,4}`; (ii) one rank per parcel;
(iii) ranks are monotone in distance (rank 1 on the lowest-distance quartile,
rank 4 on the highest, distance ranges non-decreasing with rank); and
(iv) on a duplicate-free population whose size is a multiple of 4 the four
rank groups have exactly equal sizes.  The edges are by construction the
empirical quartiles of that criterion's own distance vector (see `qcut4`),
recomputed fresh on every call. -/
theorem C6_quartile_rank_invariants (xs : List ℚ) (rs : List ℕ)
    (hok : qcut4 xs = Except.ok rs) :
    (∀ r ∈ rs, 1 ≤ r ∧ r ≤ 4) ∧
    rs.length = xs.length ∧
    (∀ i j : ℕ, i < xs.length → j < xs.length →
      xs.getD i 0 ≤ xs.getD j 0 → rs.getD i 0 ≤ rs.getD j 0) ∧
    (∀ m : ℕ, 0 < m → xs.length = 4 * m → xs.Nodup →
      ∀ r : ℕ, 1 ≤ r → r ≤ 4 → rs.count r = m) := by
  have hrs := qcut4_ok_inv hok
  subst hrs
  refine ⟨?_, List.length_map _ _, ?_, ?_⟩
  · intro r hr
    obtain ⟨x, _, hxr⟩ := List.mem_map.mp hr
    rw [← hxr]
    exact binOf_le_four _ _ _ _
  · intro i j hi hj hij
    have hgd : ∀ k, k < xs.length →
        (xs.map (binOf (quantileLinear xs (1 / 4)) (quantileLinear xs (1 / 2))
          (quantileLinear xs (3 / 4)))).getD k 0 =
        binOf (quantileLinear xs (1 / 4)) (quantileLinear xs (1 / 2))
          (quantileLinear xs (3 / 4)) (xs.getD k 0) := by
      intro k hk
      have hk2 : k < (xs.map (binOf (quantileLinear xs (1 / 4))
          (quantileLinear xs (1 / 2)) (quantileLinear xs (3 / 4)))).length := by
        rw [List.length_map]
        exact hk
      rw [List.getD_eq_getElem _ _ hk2, List.getD_eq_getElem _ _ hk, List.getElem_map]
    rw [hgd i hi, hgd j hj]
    exact binOf_mono _ _ _ hij
  · intro m hm hn hnd r hr1 hr4
    exact qcut4_count_eq hm hn hnd hr1 hr4

/-- Witness for `C6_quartile_rank_invariants`: on the distance vector
`[3, 1, 0, 2]` qcut succeeds with ranks `[4, 2, 1, 3]` and rank 1 is assigned
exactly once. -/
theorem C6_witness : ([4, 2, 1, 3] : List ℕ).count 1 = 1 :=
  (C6_quartile_rank_invariants [3, 1, 0, 2] [4, 2, 1, 3]
      (by with_unfolding_all rfl)).2.2.2 1 (by norm_num) (by norm_num)
    (by decide) 1 (le_refl 1) (by norm_num)

/-! ### C7: representative point and spatial join -/

/-- When at most one noise polygon contains the point, the sjoin rows for
that point collapse to the single `find?` row. -/
theorem sjoin_rows_single {pt : ℚ} {ruido : List (Interv × ℚ)}
    (h : (ruido.filter (fun nz => nz.1.containsPt pt)).length ≤ 1) :
    (match ruido.filter (fun nz => nz.1.containsPt pt) with
      | [] => [(none : Option ℚ)]
      | ms => ms.map (fun nz => some nz.2)) =
    [(ruido.find? (fun nz => nz.1.containsPt pt)).map Prod.snd] := by
  rw [← List.filter_head? (fun nz => nz.1.containsPt pt) ruido]
  cases hf : ruido.filter (fun nz => nz.1.containsPt pt) with
  | nil => simp
  | cons a t =>
    cases t with
    | nil => simp
    | cons b t2 =>
      rw [hf] at h
      simp at h

/-- The left spatial join equals a per-parcel `find?` when every
representative point lies in at most one noise polygon. -/
theorem sjoin_within_of_unique {pts : List ℚ} {ruido : List (Interv × ℚ)}
    (h : ∀ pt ∈ pts, (ruido.filter (fun nz => nz.1.containsPt pt)).length ≤ 1) :
    sjoin_within pts ruido =
      pts.map (fun pt => (ruido.find? (fun nz => nz.1.containsPt pt)).map Prod.snd) := by
  induction pts with
  | nil => rfl
  | cons p ps ih =>
    unfold sjoin_within
    rw [List.flatMap_cons]
    rw [sjoin_rows_single (h p (List.mem_cons_self p ps))]
    have ihh := ih (fun pt hpt => h pt (List.mem_cons_of_mem p hpt))
    unfold sjoin_within at ihh
    rw [List.map_cons, ihh]
    rfl

/-- C7 (amended): the representative point of every well-formed parcel
geometry lies inside the parcel, and — provided every representative point is
contained in at most one noise polygon — `DB_VEH` is assigned the decibel
attribute of the unique containing polygon, or is absent (not zero) when no
polygon contains the point.  (When a point lies in two or more polygons the
source instead fails with a length-mismatch `ValueError`; see the
counterexample.) -/
theorem C7_amended_representative_point_join :
    (∀ g : Interv, g.lo ≤ g.hi →
      g.lo ≤ representative_point g ∧ representative_point g ≤ g.hi) ∧
    (∀ (parcelas : List Interv) (ruido : List (Interv × ℚ)),
      (∀ g ∈ parcelas,
        (ruido.filter (fun nz => nz.1.containsPt (representative_point g))).length ≤ 1) →
      assign_db_veh parcelas ruido = Except.ok (parcelas.map (fun g =>
        (ruido.find? (fun nz => nz.1.containsPt (representative_point g))).map
          Prod.snd))) := by
  constructor
  · intro g hg
    unfold representative_point
    constructor
    · linarith
    · linarith
  · intro parcelas ruido h
    unfold assign_db_veh
    have hs : sjoin_within (parcelas.map representative_point) ruido =
        (parcelas.map representative_point).map
          (fun pt => (ruido.find? (fun nz => nz.1.containsPt pt)).map Prod.snd) := by
      apply sjoin_within_of_unique
      intro pt hpt
      obtain ⟨g, hg, hgp⟩ := List.mem_map.mp hpt
      rw [← hgp]
      exact h g hg
    rw [hs, List.map_map]
    rw [if_pos (by simp)]
    rfl

/-- Witness for `C7_amended_representative_point_join`: one parcel, one
containing noise polygon with 50 dB. -/
theorem C7_witness :
    assign_db_veh [Interv.mk 0 2] [(Interv.mk 0 2, 50)] = Except.ok [some 50] := by
  rw [C7_amended_representative_point_join.2 [Interv.mk 0 2] [(Interv.mk 0 2, 50)]
    (by with_unfolding_all decide)]
  with_unfolding_all rfl

/-- C7 counterexample: when the representative point lies within two noise
polygons the source does not take the first polygon's decibel value: the
left join returns two rows for one parcel and the column assignment
`parcelas['DB_VEH'] = joined_veh['DB_HI'].values` raises a pandas
length-mismatch `ValueError`. -/
theorem C7_counterexample :
    assign_db_veh [Interv.mk 0 2] [(Interv.mk 0 2, 50), (Interv.mk 0 2, 60)]
      = Except.error "Length of values does not match length of index" ∧
    ¬ assign_db_veh [Interv.mk 0 2] [(Interv.mk 0 2, 50), (Interv.mk 0 2, 60)]
      = Except.ok [some 50] := by
  have herr : assign_db_veh [Interv.mk 0 2] [(Interv.mk 0 2, 50), (Interv.mk 0 2, 60)]
      = Except.error "Length of values does not match length of index" := by
    with_unfolding_all rfl
  refine ⟨herr, fun hc => ?_⟩
  rw [herr] at hc
  exact Except.noConfusion hc

/-! ### C8: geometry is never rewritten by any pipeline stage -/

theorem except_bind_ok {α β : Type} {x : Except String α} {f : α → Except String β}
    {b : β} (h : (x >>= f) = Except.ok b) :
    ∃ a, x = Except.ok a ∧ f a = Except.ok b := by
  cases x with
  | error e => exact absurd h (by simp [Bind.bind, Except.bind])
  | ok a => exact ⟨a, rfl, by simpa [Bind.bind, Except.bind] using h⟩

theorem zipWith_left_eval {α β γ : Type} (f : α → γ) :
    ∀ (l1 : List α) (l2 : List β), l1.length ≤ l2.length →
      List.zipWith (fun a _ => f a) l1 l2 = l1.map f
  | [], _, _ => rfl
  | _ :: l1, _ :: l2, h => by
      simp only [List.zipWith_cons_cons, List.map_cons]
      rw [zipWith_left_eval f l1 l2 (by simpa using h)]
  | _ :: _, [], h => by simp at h

theorem setCol_geom (t : List Row) (name : String) (vals : List (Option ℚ))
    (h : t.length ≤ vals.length) :
    (setCol t name vals).map Row.geometry = t.map Row.geometry := by
  unfold setCol
  rw [List.map_zipWith]
  exact zipWith_left_eval Row.geometry t vals h

theorem setCol_length (t : List Row) (name : String) (vals : List (Option ℚ))
    (h : t.length ≤ vals.length) : (setCol t name vals).length = t.length := by
  unfold setCol
  rw [List.length_zipWith]
  omega

theorem getCol_length (t : List Row) (name : String) :
    (getCol t name).length = t.length :=
  List.length_map _ _

theorem assignLabels_length : ∀ (ds : List (Option ℚ)) (rks : List ℕ),
    (assignLabels ds rks).length = ds.length
  | [], _ => rfl
  | none :: ds, rks => by
      simp [assignLabels, assignLabels_length ds rks]
  | some q :: ds, [] => by
      simp [assignLabels, assignLabels_length ds []]
  | some q :: ds, r :: rks => by
      simp [assignLabels, assignLabels_length ds rks]

theorem astypeInt_length : ∀ {vals : List (Option ℚ)} {l : List ℤ},
    astypeInt vals = Except.ok l → l.length = vals.length
  | [], l, h => by
      have hl : l = [] := (Except.ok.inj h).symm
      subst hl
      rfl
  | none :: vs, l, h => by
      simp [astypeInt] at h
  | some q :: vs, l, h => by
      simp only [astypeInt] at h
      obtain ⟨rest, hr, hok⟩ := except_bind_ok h
      have hl : l = ⌊q⌋ :: rest := (Except.ok.inj hok).symm
      subst hl
      simp [astypeInt_length hr]

theorem normalizarCells_length {a b : ℚ} : ∀ {vals : List (Option ℚ)} {l : List ℤ},
    normalizarCells a b vals = Except.ok l → l.length = vals.length
  | [], l, h => by
      have hl : l = [] := (Except.ok.inj h).symm
      subst hl
      rfl
  | none :: vs, l, h => by
      simp [normalizarCells] at h
  | some q :: vs, l, h => by
      simp only [normalizarCells] at h
      obtain ⟨rest, hr, hok⟩ := except_bind_ok h
      have hl : l = normalizar_rango_fijo q a b :: rest := (Except.ok.inj hok).symm
      subst hl
      simp [normalizarCells_length hr]

theorem assign_db_veh_length {parcelas : List Interv} {ruido : List (Interv × ℚ)}
    {vals : List (Option ℚ)} (h : assign_db_veh parcelas ruido = Except.ok vals) :
    vals.length = parcelas.length := by
  simp only [assign_db_veh] at h
  split_ifs at h with hlen
  have hv : vals = sjoin_within (parcelas.map representative_point) ruido :=
    (Except.ok.inj h).symm
  subst hv
  exact hlen

theorem calcular_cuartil_geom {t : List Row} {capa : List Interv} {dc cc : String}
    {t2 : List Row} (h : calcular_cuartil t capa dc cc = Except.ok t2) :
    t2.map Row.geometry = t.map Row.geometry ∧ t2.length = t.length := by
  simp only [calcular_cuartil] at h
  obtain ⟨rks, _, hok⟩ := except_bind_ok h
  have ht2 : t2 = setCol (setCol t dc (t.map fun r => calcular_dist capa r.geometry)) cc
      ((assignLabels (t.map fun r => calcular_dist capa r.geometry) rks).map
        (Option.map fun n : ℕ => (n : ℚ))) := (Except.ok.inj hok).symm
  subst ht2
  have hd : (t.map fun r => calcular_dist capa r.geometry).length = t.length :=
    List.length_map _ _
  have hin_len : (setCol t dc (t.map fun r => calcular_dist capa r.geometry)).length
      = t.length := setCol_length _ _ _ (by omega)
  have hlab : ((assignLabels (t.map fun r => calcular_dist capa r.geometry) rks).map
      (Option.map fun n : ℕ => (n : ℚ))).length = t.length := by
    rw [List.length_map, assignLabels_length, List.length_map]
  constructor
  · rw [setCol_geom _ _ _ (by omega), setCol_geom _ _ _ (by omega)]
  · rw [setCol_length _ _ _ (by omega), hin_len]

theorem suma_grupos_geom {t t2 : List Row} (h : suma_grupos t = Except.ok t2) :
    t2.map Row.geometry = t.map Row.geometry ∧ t2.length = t.length := by
  simp only [suma_grupos] at h
  obtain ⟨zver, hz, h⟩ := except_bind_ok h
  obtain ⟨metr, hmt, h⟩ := except_bind_ok h
  obtain ⟨bus, hb, h⟩ := except_bind_ok h
  obtain ⟨salu, hsl, h⟩ := except_bind_ok h
  obtain ⟨edu, hed, h⟩ := except_bind_ok h
  obtain ⟨depo, hdp, h⟩ := except_bind_ok h
  have hzl : zver.length = t.length := by
    rw [astypeInt_length hz, getCol_length]
  have hml : metr.length = t.length := by
    rw [astypeInt_length hmt, getCol_length]
  have hbl : bus.length = t.length := by
    rw [astypeInt_length hb, getCol_length]
  have hsl2 : salu.length = t.length := by
    rw [astypeInt_length hsl, getCol_length]
  have hel : edu.length = t.length := by
    rw [astypeInt_length hed, getCol_length]
  have hdl : depo.length = t.length := by
    rw [astypeInt_length hdp, getCol_length]
  have ht2 : t2 = setCol (setCol (setCol t "sum_zver" (zver.map fun z : ℤ => some ((z : ℚ))))
      "sum_trans" ((List.zipWith (fun a b : ℤ => a + b) metr bus).map fun z : ℤ => some ((z : ℚ))))
      "sum_serv" ((List.zipWith (fun a b : ℤ => a + b) salu
        (List.zipWith (fun a b : ℤ => a + b) edu depo)).map fun z : ℤ => some ((z : ℚ))) :=
    (Except.ok.inj h).symm
  subst ht2
  have l1 : (zver.map fun z : ℤ => some ((z : ℚ))).length = t.length := by
    rw [List.length_map]; omega
  have l2 : ((List.zipWith (fun a b : ℤ => a + b) metr bus).map
      fun z : ℤ => some ((z : ℚ))).length = t.length := by
    rw [List.length_map, List.length_zipWith]; omega
  have l3 : ((List.zipWith (fun a b : ℤ => a + b) salu
      (List.zipWith (fun a b : ℤ => a + b) edu depo)).map
        fun z : ℤ => some ((z : ℚ))).length = t.length := by
    rw [List.length_map, List.length_zipWith, List.length_zipWith]; omega
  have s1l : (setCol t "sum_zver" (zver.map fun z : ℤ => some ((z : ℚ)))).length = t.length :=
    setCol_length _ _ _ (by omega)
  have s2l : (setCol (setCol t "sum_zver" (zver.map fun z : ℤ => some ((z : ℚ))))
      "sum_trans" ((List.zipWith (fun a b : ℤ => a + b) metr bus).map
        fun z : ℤ => some ((z : ℚ)))).length = t.length := by
    rw [setCol_length _ _ _ (by omega), s1l]
  constructor
  · rw [setCol_geom _ _ _ (by omega), setCol_geom _ _ _ (by omega),
      setCol_geom _ _ _ (by omega)]
  · rw [setCol_length _ _ _ (by omega), s2l]

theorem normalizar_col_geom {t t2 : List Row} {ci co : String} {a b : ℚ}
    (h : normalizar_rango_fijo_col t ci co a b = Except.ok t2) :
    t2.map Row.geometry = t.map Row.geometry ∧ t2.length = t.length := by
  simp only [normalizar_rango_fijo_col] at h
  obtain ⟨vals, hv, hok⟩ := except_bind_ok h
  have hvl : vals.length = t.length := by
    rw [normalizarCells_length hv, getCol_length]
  have ht2 : t2 = setCol t co (vals.map fun z : ℤ => some ((z : ℚ))) :=
    (Except.ok.inj hok).symm
  subst ht2
  have hl : (vals.map fun z : ℤ => some ((z : ℚ))).length = t.length := by
    rw [List.length_map]; omega
  exact ⟨setCol_geom _ _ _ (by omega), setCol_length _ _ _ (by omega)⟩

theorem variable_ruido_geom {t t2 : List Row} {ruido : List (Interv × ℚ)}
    (h : variable_ruido t ruido = Except.ok t2) :
    t2.map Row.geometry = t.map Row.geometry ∧ t2.length = t.length := by
  simp only [variable_ruido] at h
  obtain ⟨dbv, hj, hok⟩ := except_bind_ok h
  have hc_len : (setCol t "centroid" (t.map fun r =>
      some (representative_point r.geometry))).length = t.length :=
    setCol_length _ _ _ (by rw [List.length_map])
  have hdl : dbv.length = t.length := by
    rw [assign_db_veh_length hj, List.length_map, hc_len]
  have ht2 : t2 = setCol (setCol (setCol t "centroid" (t.map fun r =>
      some (representative_point r.geometry))) "DB_VEH" dbv) "ru_veh"
      ((getCol (setCol (setCol t "centroid" (t.map fun r =>
        some (representative_point r.geometry))) "DB_VEH" dbv) "DB_VEH").map
          fun v => (ru_veh_band v).map fun n : ℕ => (n : ℚ)) :=
    (Except.ok.inj hok).symm
  subst ht2
  have h2l : (setCol (setCol t "centroid" (t.map fun r =>
      some (representative_point r.geometry))) "DB_VEH" dbv).length = t.length := by
    rw [setCol_length _ _ _ (by omega), hc_len]
  have h3l : ((getCol (setCol (setCol t "centroid" (t.map fun r =>
      some (representative_point r.geometry))) "DB_VEH" dbv) "DB_VEH").map
        fun v => (ru_veh_band v).map fun n : ℕ => (n : ℚ)).length = t.length := by
    rw [List.length_map, getCol_length, h2l]
  constructor
  · rw [setCol_geom _ _ _ (by omega), setCol_geom _ _ _ (by omega),
      setCol_geom _ _ _ (by rw [List.length_map])]
  · rw [setCol_length _ _ _ (by omega), h2l]

theorem indice_total_col_geom {t t2 : List Row}
    (h : indice_total_col t = Except.ok t2) :
    t2.map Row.geometry = t.map Row.geometry ∧ t2.length = t.length := by
  simp only [indice_total_col] at h
  obtain ⟨zver, hz, h⟩ := except_bind_ok h
  obtain ⟨tran, htr, h⟩ := except_bind_ok h
  obtain ⟨serv, hsv, h⟩ := except_bind_ok h
  have hzl : zver.length = t.length := by
    rw [astypeInt_length hz, getCol_length]
  have htl : tran.length = t.length := by
    rw [astypeInt_length htr, getCol_length]
  have hsl : serv.length = t.length := by
    rw [astypeInt_length hsv, getCol_length]
  have ht2 : t2 = setCol t "indice_contexto_total"
      ((List.zipWith (fun zt sr => indice_contexto_total zt.1 zt.2 sr.1 sr.2)
        (List.zip zver tran)
        (List.zip serv ((getCol t "ru_veh").map fun v =>
          v.map fun q => (⌊q⌋).toNat))).map fun z : ℤ => some ((z : ℚ))) :=
    (Except.ok.inj h).symm
  subst ht2
  have hl : ((List.zipWith (fun zt sr => indice_contexto_total zt.1 zt.2 sr.1 sr.2)
      (List.zip zver tran)
      (List.zip serv ((getCol t "ru_veh").map fun v =>
        v.map fun q => (⌊q⌋).toNat))).map fun z : ℤ => some ((z : ℚ))).length = t.length := by
    rw [List.length_map, List.length_zipWith, List.length_zip, List.length_zip,
      List.length_map, getCol_length]
    omega
  exact ⟨setCol_geom _ _ _ (by omega), setCol_length _ _ _ (by omega)⟩

theorem dropCol_geom (t : List Row) (name : String) :
    (dropCol t name).map Row.geometry = t.map Row.geometry := by
  unfold dropCol
  rw [List.map_map]
  exact List.map_congr_left (fun r _ => rfl)

/-- C8: for every coordinate transformation `reproj` (applied, once and
before any scoring, to the seven reference layers only) and every successful
pipeline run, the geometry of every parcel is unchanged by every pipeline
stage: the output rows carry exactly the input parcel geometries, in order,
augmented only with derived attribute columns. -/
theorem C8_geometry_immutable (reproj : Interv → Interv) (parcelas0 : List Interv)
    (zonas_verde metro bus c_salud c_educacion int_deportivas : List Interv)
    (ruido_trafico : List (Interv × ℚ)) (out : List Row)
    (h : pipeline reproj parcelas0 zonas_verde metro bus c_salud c_educacion
      int_deportivas ruido_trafico = Except.ok out) :
    out.map Row.geometry = parcelas0 := by
  simp only [pipeline] at h
  obtain ⟨t1, h1, h⟩ := except_bind_ok h
  obtain ⟨t2, h2, h⟩ := except_bind_ok h
  obtain ⟨t3, h3, h⟩ := except_bind_ok h
  obtain ⟨t4, h4, h⟩ := except_bind_ok h
  obtain ⟨t5, h5, h⟩ := except_bind_ok h
  obtain ⟨t6, h6, h⟩ := except_bind_ok h
  obtain ⟨t7, h7, h⟩ := except_bind_ok h
  obtain ⟨t8, h8, h⟩ := except_bind_ok h
  obtain ⟨t9, h9, h⟩ := except_bind_ok h
  obtain ⟨t10, h10, h⟩ := except_bind_ok h
  obtain ⟨t11, h11, h⟩ := except_bind_ok h
  have hout : out = dropCol t11 "centroid" := (Except.ok.inj h).symm
  subst hout
  rw [dropCol_geom, (indice_total_col_geom h11).1, (variable_ruido_geom h10).1,
    (normalizar_col_geom h9).1, (normalizar_col_geom h8).1, (suma_grupos_geom h7).1,
    (calcular_cuartil_geom h6).1, (calcular_cuartil_geom h5).1,
    (calcular_cuartil_geom h4).1, (calcular_cuartil_geom h3).1,
    (calcular_cuartil_geom h2).1, (calcular_cuartil_geom h1).1, List.map_map]
  exact List.map_id parcelas0

/-- Witness for `C8_geometry_immutable`: a four-parcel run with singleton
reference layers and one noise polygon succeeds and returns exactly the four
input geometries. -/
theorem C8_witness :
    (pipeline id [Interv.mk 0 0, Interv.mk 1 1, Interv.mk 2 2, Interv.mk 3 3]
      [Interv.mk 10 10] [Interv.mk 10 10] [Interv.mk 10 10] [Interv.mk 10 10]
      [Interv.mk 10 10] [Interv.mk 10 10] [(Interv.mk (-1) (1 / 2), 50)]).map
        (List.map Row.geometry)
      = Except.ok [Interv.mk 0 0, Interv.mk 1 1, Interv.mk 2 2, Interv.mk 3 3] := by
  have hok : (pipeline id [Interv.mk 0 0, Interv.mk 1 1, Interv.mk 2 2, Interv.mk 3 3]
      [Interv.mk 10 10] [Interv.mk 10 10] [Interv.mk 10 10] [Interv.mk 10 10]
      [Interv.mk 10 10] [Interv.mk 10 10] [(Interv.mk (-1) (1 / 2), 50)]).isOk = true := by
    with_unfolding_all decide
  cases hp : pipeline id [Interv.mk 0 0, Interv.mk 1 1, Interv.mk 2 2, Interv.mk 3 3]
      [Interv.mk 10 10] [Interv.mk 10 10] [Interv.mk 10 10] [Interv.mk 10 10]
      [Interv.mk 10 10] [Interv.mk 10 10] [(Interv.mk (-1) (1 / 2), 50)] with
  | error e =>
    rw [hp] at hok
    exact Bool.noConfusion hok
  | ok t =>
    have hg := C8_geometry_immutable id
      [Interv.mk 0 0, Interv.mk 1 1, Interv.mk 2 2, Interv.mk 3 3]
      [Interv.mk 10 10] [Interv.mk 10 10] [Interv.mk 10 10] [Interv.mk 10 10]
      [Interv.mk 10 10] [Interv.mk 10 10] [(Interv.mk (-1) (1 / 2), 50)] t hp
    simp only [Except.map, hg]

end IndiceVulnerabilidad
